import Mathlib

/-!
# Verification of the `wiki-path` breadth-first link search

This file is a shallow embedding of the core of `src/main.rs` of the
`wiki-path` repository: the `cmd_path` function (lazy breadth-first search
over the article link graph with a deduplicated registry and parent-pointer
path reconstruction), its inline link extraction, its inline
`insert_if_new` registry step, and the sleep-based rate limiter.

Network fetching is modelled by a function `String → Option (List Element)`:
`none` models a failed `request.send()` or a failed `res.text()`, and
`some doc` models the parsed document (the sequence of elements that
`scraper`'s universal selector would yield, each with its id, tag name and
`href` attribute).  Real time as used by the rate limiter is modelled by an
idealized unbounded monotonic rational clock.
-/

namespace WikiPath

/-! ## List lookup helpers -/

/-- Positional lookup in a list, the counterpart of Rust's `articles[i]`
indexing (made total by returning an `Option`). -/
def nth {α : Type} : List α → Nat → Option α
  | [], _ => none
  | a :: _, 0 => some a
  | _ :: l, n + 1 => nth l n

/-- `nth` with a default value, the counterpart of an infallible index. -/
def nthD {α : Type} (l : List α) (i : Nat) (d : α) : α :=
  (nth l i).getD d

/-! ## Link extraction (src/main.rs, lines 168-186)

An `Element` carries the three attributes the source inspects: the `id`
attribute, the tag name, and the `href` attribute. -/

structure Element where
  id : Option String
  name : String
  href : Option String

/-- Character-level prefix stripping: `some` of the remainder when the
first list is a prefix of the second.  (String functions from the library
are avoided because they do not reduce inside the kernel.) -/
def dropPre? : List Char → List Char → Option (List Char)
  | [], s => some s
  | _ :: _, [] => none
  | p :: ps, c :: cs => if p = c then dropPre? ps cs else none

/-- Truncation at the first `'#'` character: `name.find('#')` followed by
the slice `&name[..idx]` of lines 181-183. -/
def takeUntilHash : List Char → List Char
  | [] => []
  | c :: cs => if c = '#' then [] else c :: takeUntilHash cs

/-- `name.contains(':')` from line 185. -/
def containsColon : List Char → Bool
  | [] => false
  | c :: cs => c = ':' || containsColon cs

/-- `href.strip_prefix(prefix)` from line 179. -/
def stripPre? (pre s : String) : Option String :=
  (dropPre? pre.data s.data).map fun cs => ⟨cs⟩

/-- The candidate produced from one `href` value: strip the configured
link prefix (line 179), truncate at the first `#` (lines 181-183), and
discard `"Main_Page"` and names containing `':'` (line 185). -/
def hrefCandidate (pre href : String) : Option String :=
  match stripPre? pre href with
  | none => none
  | some n0 =>
    let name : String := ⟨takeUntilHash n0.data⟩
    if name = "Main_Page" ∨ containsColon name.data = true then none else some name

/-- The element scan of lines 171-186: stop at the element whose id is
`External_links` when `external` is false (lines 173-175), and collect the
candidate of every anchor element's `href` in document order. -/
def extractLinks (external : Bool) (pre : String) : List Element → List String
  | [] => []
  | e :: es =>
    if external = false ∧ e.id = some "External_links" then []
    else
      let rest := extractLinks external pre es
      if e.name = "a" then
        match e.href with
        | some href =>
          match hrefCandidate pre href with
          | some n => n :: rest
          | none => rest
        | none => rest
      else rest

/-! ## Registry (src/main.rs, lines 113-114 and 188-192) -/

/-- Lines 188-192: push the identifier and record the parent edge exactly
when `articles` does not already contain it; the fresh index is the length
of `articles` before the push (`articles.len() - 1` after it).  The parent
map `article_parent` is modelled as an association list with newest entry
first (insertion of a fresh key). -/
def insertIfNew (articles : List String) (ps : List (Nat × Nat))
    (name : String) (parentIdx : Nat) :
    Option Nat × List String × List (Nat × Nat) :=
  if name ∈ articles then (none, articles, ps)
  else (some articles.length, articles ++ [name], (articles.length, parentIdx) :: ps)

/-- `article_parent[&current]` (line 202), as an association-list lookup. -/
def lookupParent (ps : List (Nat × Nat)) (i : Nat) : Option Nat :=
  match ps.find? (fun q => q.1 == i) with
  | some q => some q.2
  | none => none

/-- The reconstruction loop of lines 199-203: starting from `current`,
push `articles[current]` and follow the parent pointer until index 0 is
reached.  The loop is made total by fuel; a missing article or parent
entry (which would panic in the source) yields `none`. -/
def pathToAux (articles : List String) (ps : List (Nat × Nat)) :
    Nat → Nat → Option (List String)
  | _, 0 => some []
  | 0, _ + 1 => none
  | fuel + 1, c + 1 =>
    match nth articles (c + 1), lookupParent ps (c + 1) with
    | some a, some p => (pathToAux articles ps fuel p).map (fun l => a :: l)
    | _, _ => none

/-- Lines 197-205: collect the identifiers from `i` back to the sentinel
and reverse them into start-to-target order. -/
def pathTo (articles : List String) (ps : List (Nat × Nat)) (i : Nat) :
    Option (List String) :=
  (pathToAux articles ps i i).map List.reverse

/-! ## Search state and the breadth-first driver (src/main.rs, lines 113-226) -/

/-- The mutable state of `cmd_path`: the registry (`articles` and
`article_parent`), the frontier cursor `curr_idx`, the counter
`next_level_len`, plus the three observable output channels — `results`
(the reconstructed paths printed at line 207), `fetched` (one entry per
page fetch, with the loop depth; in verbose mode the source prints exactly
these at line 131), and `errors` (the identifiers whose fetch or body read
failed, logged at lines 155 and 163). -/
structure SearchState where
  articles : List String
  parents : List (Nat × Nat)
  currIdx : Nat
  nextLevelLen : Nat
  results : List (List String)
  fetched : List (String × Nat)
  errors : List String

/-- The fixed data of one search invocation.  `fetch` models the composite
of `request.send()` and `res.text()` followed by `Html::parse_document`:
`none` is a network or decoding failure, `some doc` the parsed element
sequence.  `endName` is the target identifier `end`. -/
structure Config where
  fetch : String → Option (List Element)
  endName : String
  all : Bool
  external : Bool
  pre : String

/-- The candidate identifiers one article's page yields: empty on fetch
failure, otherwise the extraction of lines 171-186.  This induces the link
graph of the documents. -/
def candidates (cfg : Config) (a : String) : List String :=
  match cfg.fetch a with
  | none => []
  | some doc => extractLinks cfg.external cfg.pre doc

/-- Lines 188-218 for a single candidate name: attempt the registry
insertion; on success check the target, reconstruct and record the path,
and stop (`return`) exactly when `all` is false. -/
def processCandidate (cfg : Config) (st : SearchState) (name : String) :
    SearchState × Bool :=
  match insertIfNew st.articles st.parents name st.currIdx with
  | (none, _, _) => (st, false)
  | (some newIdx, articles, ps) =>
    let st1 : SearchState := { st with
      articles := articles, parents := ps, nextLevelLen := st.nextLevelLen + 1 }
    if name = cfg.endName then
      let path := (pathTo articles ps newIdx).getD []
      ({ st1 with results := st1.results ++ [path] }, !cfg.all)
    else (st1, false)

/-- The candidate loop (the body of lines 171-224 after extraction),
propagating the early `return` of line 216. -/
def processCandidates (cfg : Config) (st : SearchState) :
    List String → SearchState × Bool
  | [] => (st, false)
  | n :: ns =>
    match processCandidate cfg st n with
    | (st1, true) => (st1, true)
    | (st1, false) => processCandidates cfg st1 ns

/-- One iteration of the `while curr_idx < end_idx` loop (lines 125-225):
advance the cursor, fetch the article there, and on failure log and move
on (`continue`), otherwise run the candidate loop on the extraction. -/
def processNode (cfg : Config) (st : SearchState) (depth : Nat) :
    SearchState × Bool :=
  let idx := st.currIdx + 1
  let article := nthD st.articles idx ""
  let st1 : SearchState := { st with
    currIdx := idx, fetched := st.fetched ++ [(article, depth)] }
  match cfg.fetch article with
  | none => ({ st1 with errors := st1.errors ++ [article] }, false)
  | some doc => processCandidates cfg st1 (extractLinks cfg.external cfg.pre doc)

/-- The whole `while` loop of one level: exactly `level_len` node steps,
stopping early when a step returns. -/
def processLevel (cfg : Config) (st : SearchState) (depth : Nat) :
    Nat → SearchState × Bool
  | 0 => (st, false)
  | r + 1 =>
    match processNode cfg st depth with
    | (st1, true) => (st1, true)
    | (st1, false) => processLevel cfg st1 depth r

/-- The `for depth in 0..(max_depth + 1)` loop (line 120): fix
`level_len = next_level_len`, reset `next_level_len` to zero
(lines 121-122), process the level, and continue unless the early return
fired. -/
def runLevels (cfg : Config) (st : SearchState) (depth : Nat) :
    Nat → SearchState
  | 0 => st
  | n + 1 =>
    match processLevel cfg { st with nextLevelLen := 0 } depth st.nextLevelLen with
    | (st1, true) => st1
    | (st1, false) => runLevels cfg st1 (depth + 1) n

/-- Lines 113-118: the registry starts with the sentinel (an empty string)
at index 0 and the start article at index 1, whose parent entry is the
sentinel; the cursor is before index 1 and the first level has length 1. -/
def initState (start : String) : SearchState :=
  ⟨["", start], [(1, 0)], 0, 1, [], [], []⟩

/-- The core of `cmd_path`: run `max_depth + 1` levels from depth 0. -/
def cmdPath (cfg : Config) (start : String) (maxDepth : Nat) : SearchState :=
  runLevels cfg (initState start) 0 (maxDepth + 1)

/-! ## Rate limiter model (src/main.rs, lines 20, 108-111 and 144-149)

Time is an idealized unbounded monotonic rational clock: `thread::sleep`
is exact and `Instant::now()` immediately after the sleep returns the wake
time.  One request is described by its processing duration; the limiter
step computes the send time (after the conditional sleep of lines
145-148) and the completion time. -/

/-- Line 108: the minimum inter-request interval, one hour divided by the
hourly budget (the `f32` arithmetic of the source is idealized as exact
rational arithmetic). -/
def reqWait (ratePerHour : ℚ) : ℚ := 3600 / ratePerHour

/-- The fetch loop as seen by the rate limiter: given the current time
`now` and the recorded `prev` timestamp, each request is issued at
`max now (prev + W)` (lines 145-148: sleep exactly until `prev + W` when
the elapsed time is still short), the new timestamp is the issue time
(line 149: `prev_req = Instant::now()` runs before `request.send()`), and
the request returns control `d` later.  The result lists the issue and
completion time of every request. -/
def rlRunAux (W : ℚ) (now prev : ℚ) : List ℚ → List (ℚ × ℚ)
  | [] => []
  | d :: ds =>
    let send := max now (prev + W)
    (send, send + d) :: rlRunAux W (send + d) send ds

/-- A full run starting at time `t0`: lines 109-111 initialize the
previous-request timestamp to `W` in the past. -/
def rlRun (W t0 : ℚ) (ds : List ℚ) : List (ℚ × ℚ) :=
  rlRunAux W t0 (t0 - W) ds

/-! ## The link graph induced by the documents -/

/-- A walk of `n` hops in the graph induced by the documents: each later
node is a candidate extracted from its predecessor's page. -/
inductive GPath (cfg : Config) : String → String → Nat → Prop
  | refl (a : String) : GPath cfg a a 0
  | step {a b c : String} {n : Nat} :
      GPath cfg a b n → c ∈ candidates cfg b → GPath cfg a c (n + 1)

/-- A walk of `n` hops none of whose intermediate nodes (nodes other than
the two endpoints) is the empty identifier. -/
inductive GPathNE (cfg : Config) : String → String → Nat → Prop
  | refl (a : String) : GPathNE cfg a a 0
  | single {a b : String} : b ∈ candidates cfg a → GPathNE cfg a b 1
  | step {a b c : String} {n : Nat} :
      GPathNE cfg a b n → b ≠ "" → c ∈ candidates cfg b → GPathNE cfg a c (n + 1)

/-- The parent chain of a registry index, target first (the list the
reconstruction loop of lines 199-203 collects before reversing). -/
def nodeChain (st : SearchState) (i : Nat) : Option (List String) :=
  pathToAux st.articles st.parents i i

/-! ## Search invariants

The breadth-first structure of `cmd_path` is captured by invariants on the
search state.  `nodeChain st i` is the parent chain of index `i`; its
length is one more than the discovery depth of the node. -/

/-- The sentinel sits at index 0 and the start article at index 1. -/
def SentinelOK (start : String) (st : SearchState) : Prop :=
  nth st.articles 0 = some "" ∧ nth st.articles 1 = some start

/-- Every real index has a recorded parent, strictly smaller, and
positive for indices past the start node. -/
def ParentsOK (st : SearchState) : Prop :=
  ∀ i, 1 ≤ i → i < st.articles.length →
    ∃ p, lookupParent st.parents i = some p ∧ p < i ∧ (2 ≤ i → 1 ≤ p)

/-- Every index past the start node was linked from its parent's page. -/
def EdgesOK (cfg : Config) (st : SearchState) : Prop :=
  ∀ i, 2 ≤ i → i < st.articles.length →
    ∃ p b a, lookupParent st.parents i = some p ∧ nth st.articles i = some b ∧
      nth st.articles p = some a ∧ b ∈ candidates cfg a

/-- The parent chain of index `i` exists and has length exactly `n`. -/
def ChainLenIs (st : SearchState) (i n : Nat) : Prop :=
  ∃ l, nodeChain st i = some l ∧ l.length = n

/-- The parent chain of index `i` exists and has length at most `n`. -/
def ChainLenLe (st : SearchState) (i n : Nat) : Prop :=
  ∃ l, nodeChain st i = some l ∧ l.length ≤ n

/-- Index `i` is fully expanded: every nonempty candidate of its page is
registered, at a depth at most one more than that of `i`. -/
def ClosedAt (cfg : Config) (st : SearchState) (i : Nat) : Prop :=
  ∀ a, nth st.articles i = some a → ∀ b ∈ candidates cfg a, b ≠ "" →
    ∃ j lj li, 1 ≤ j ∧ nth st.articles j = some b ∧
      nodeChain st j = some lj ∧ nodeChain st i = some li ∧
      lj.length ≤ li.length + 1

/-- Every recorded result is a genuine path of the induced graph from the
start to the target, and no walk avoiding empty intermediate identifiers
is strictly shorter. -/
def ResultsOK (cfg : Config) (start : String) (st : SearchState) : Prop :=
  ∀ rr ∈ st.results, rr ≠ [] ∧ GPath cfg start cfg.endName (rr.length - 1) ∧
    ∀ k, GPathNE cfg start cfg.endName k → rr.length - 1 ≤ k

/-- State-only facts preserved through the whole search. -/
structure CoreInv (cfg : Config) (start : String) (st : SearchState) : Prop where
  sent : SentinelOK start st
  parentsOK : ParentsOK st
  edges : EdgesOK cfg st
  resNew : st.results = [] ∨ (cfg.endName ≠ "" ∧ cfg.endName ≠ start ∧
    cfg.endName ≠ "Main_Page" ∧ containsColon cfg.endName.data = false)
  resK : cfg.endName ∉ st.articles → st.results = []
  resLen : st.results.length ≤ 1
  resultsOK : ResultsOK cfg start st

/-- Invariant between two node expansions of level `d`, with `r` nodes of
the level still to expand.  Indices `1..currIdx` are fully expanded (depth
at most `d`), the `r` remaining nodes of the level follow (depth exactly
`d`), and the nodes discovered for the next level close the registry
(depth exactly `d + 1`). -/
structure NodesInv (cfg : Config) (start : String) (d r : Nat)
    (st : SearchState) : Prop where
  core : CoreInv cfg start st
  arith : st.currIdx + r + st.nextLevelLen + 1 = st.articles.length
  depthProc : ∀ i, 1 ≤ i → i ≤ st.currIdx → ChainLenLe st i (d + 1)
  depthCur : ∀ i, st.currIdx < i → i ≤ st.currIdx + r → ChainLenIs st i (d + 1)
  depthNext : ∀ i, st.currIdx + r < i → i < st.articles.length →
    ChainLenIs st i (d + 2)
  closed : ∀ i, 1 ≤ i → i ≤ st.currIdx → ClosedAt cfg st i
  fetchedLe : ∀ q ∈ st.fetched, q.2 ≤ d
  fetchedLen : st.fetched.length = st.currIdx

/-- Invariant in the middle of expanding the node at index `currIdx`
(depth `d`), with `r` further nodes of the level waiting. -/
structure NodeInv (cfg : Config) (start : String) (d r : Nat)
    (st : SearchState) : Prop where
  core : CoreInv cfg start st
  hcur : 1 ≤ st.currIdx
  arith : st.currIdx + r + st.nextLevelLen + 1 = st.articles.length
  depthProc : ∀ i, 1 ≤ i → i < st.currIdx → ChainLenLe st i (d + 1)
  depthCurNode : ChainLenIs st st.currIdx (d + 1)
  depthRest : ∀ i, st.currIdx < i → i ≤ st.currIdx + r → ChainLenIs st i (d + 1)
  depthNext : ∀ i, st.currIdx + r < i → i < st.articles.length →
    ChainLenIs st i (d + 2)
  closed : ∀ i, 1 ≤ i → i < st.currIdx → ClosedAt cfg st i
  fetchedLe : ∀ q ∈ st.fetched, q.2 ≤ d
  fetchedLen : st.fetched.length = st.currIdx

/-- What survives to the final state when the search stops during level
`d` (or finishes all levels). -/
structure StopInv (cfg : Config) (start : String) (d : Nat)
    (st : SearchState) : Prop where
  core : CoreInv cfg start st
  currLt : st.currIdx < st.articles.length
  depthProc : ∀ i, 1 ≤ i → i ≤ st.currIdx → ChainLenLe st i (d + 1)
  fetchedLe : ∀ q ∈ st.fetched, q.2 ≤ d
  fetchedLen : st.fetched.length = st.currIdx

/-- Invariant at the entry of the `depth = d` iteration of the level
loop. -/
structure EntryInv (cfg : Config) (start : String) (d : Nat)
    (st : SearchState) : Prop where
  nodes : NodesInv cfg start d st.nextLevelLen { st with nextLevelLen := 0 }
  entryFetched : ∀ q ∈ st.fetched, q.2 + 1 ≤ d
  entryProc : ∀ i, 1 ≤ i → i ≤ st.currIdx → ChainLenLe st i d

/-- The candidates of the node currently being expanded that have already
been run through lines 188-218: each nonempty one is registered at depth
at most `d + 1`. -/
def DoneOK (cfg : Config) (st : SearchState) (d : Nat)
    (done : List String) : Prop :=
  ∀ b ∈ done, b ≠ "" → ∃ j lj, 1 ≤ j ∧ nth st.articles j = some b ∧
    nodeChain st j = some lj ∧ lj.length ≤ d + 2

/-- Presence facts are monotone along a search step. -/
def StepMono (st st' : SearchState) : Prop :=
  (∀ j b, nth st.articles j = some b → nth st'.articles j = some b) ∧
  (∀ j l, nodeChain st j = some l → nodeChain st' j = some l)

/-! ## Concrete searches used as witnesses and counterexamples -/

/-- An anchor element linking to `h`. -/
def aLink (h : String) : Element := { id := none, name := "a", href := some h }

/-- The document of the filter-correctness scenario of the specification:
links to `/wiki/Main_Page`, `/wiki/Talk:X`, `/wiki/Real_Article` and
`/wiki/Y#section`. -/
def exampleDoc : List Element :=
  [aLink "/wiki/Main_Page", aLink "/wiki/Talk:X",
   aLink "/wiki/Real_Article", aLink "/wiki/Y#section"]

/-- A two-article corpus: `A` links to `B`. -/
def wCfg : Config :=
  { fetch := fun a => if a = "A" then some [aLink "/wiki/B"] else some []
    endName := "B", all := false, external := false, pre := "/wiki/" }

/-- A corpus where the only two-hop route from `A` to `B` passes through
the empty identifier (a link to the bare prefix `/wiki/`), which collides
with the sentinel: `A → {"", C}`, `"" → B`, `C → D`, `D → B`. -/
def cexCfg : Config :=
  { fetch := fun a =>
      if a = "A" then some [aLink "/wiki/", aLink "/wiki/C"]
      else if a = "" then some [aLink "/wiki/B"]
      else if a = "C" then some [aLink "/wiki/D"]
      else if a = "D" then some [aLink "/wiki/B"]
      else if a = "B" then some []
      else none
    endName := "B", all := false, external := false, pre := "/wiki/" }

/-- Two distinct depth-2 routes to the target `T` (`A → B → T` and
`A → C → T`), searched in all-paths mode. -/
def c8Cfg : Config :=
  { fetch := fun a =>
      if a = "A" then some [aLink "/wiki/B", aLink "/wiki/C"]
      else if a = "B" then some [aLink "/wiki/T"]
      else if a = "C" then some [aLink "/wiki/T"]
      else if a = "T" then some []
      else none
    endName := "T", all := true, external := false, pre := "/wiki/" }

/-- Every fetch fails. -/
def errCfg : Config :=
  { fetch := fun _ => none
    endName := "B", all := false, external := false, pre := "/wiki/" }

/-- The start article links directly to itself, and the target equals the
start. -/
def selfCfg : Config :=
  { fetch := fun _ => some [aLink "/wiki/A"]
    endName := "A", all := false, external := false, pre := "/wiki/" }

theorem nth_some_lt {α : Type} {l : List α} {i : Nat} {a : α}
    (h : nth l i = some a) : i < l.length := by
  induction l generalizing i with
  | nil => simp [nth] at h
  | cons x xs ih =>
    cases i with
    | zero => simp
    | succ n =>
      simp only [nth] at h
      simpa [List.length_cons, Nat.succ_lt_succ_iff] using ih h

theorem nth_lt_some {α : Type} {l : List α} {i : Nat}
    (h : i < l.length) : ∃ a, nth l i = some a := by
  induction l generalizing i with
  | nil => simp at h
  | cons x xs ih =>
    cases i with
    | zero => exact ⟨x, rfl⟩
    | succ n =>
      simp only [List.length_cons, Nat.succ_lt_succ_iff] at h
      exact ih h

theorem nth_mem {α : Type} {l : List α} {i : Nat} {a : α}
    (h : nth l i = some a) : a ∈ l := by
  induction l generalizing i with
  | nil => simp [nth] at h
  | cons x xs ih =>
    cases i with
    | zero => simp [nth] at h; simp [h]
    | succ n =>
      simp only [nth] at h
      exact List.mem_cons_of_mem _ (ih h)

theorem mem_nth {α : Type} {l : List α} {a : α}
    (h : a ∈ l) : ∃ i, nth l i = some a := by
  induction l with
  | nil => simp at h
  | cons x xs ih =>
    rcases List.mem_cons.mp h with h | h
    · exact ⟨0, by simp [nth, h]⟩
    · rcases ih h with ⟨i, hi⟩
      exact ⟨i + 1, by simpa [nth] using hi⟩

theorem nth_append_lt {α : Type} {l l' : List α} {i : Nat}
    (h : i < l.length) : nth (l ++ l') i = nth l i := by
  induction l generalizing i with
  | nil => simp at h
  | cons x xs ih =>
    cases i with
    | zero => rfl
    | succ n =>
      simp only [List.length_cons, Nat.succ_lt_succ_iff] at h
      simpa [nth] using ih h

theorem nth_append_self {α : Type} {l : List α} {a : α} :
    nth (l ++ [a]) l.length = some a := by
  induction l with
  | nil => rfl
  | cons x xs ih => simpa [nth] using ih

theorem nthD_of_nth {α : Type} {l : List α} {i : Nat} {a : α} (d : α)
    (h : nth l i = some a) : nthD l i d = a := by
  simp [nthD, h]

/-! ## Lemmas about the parent map and the reconstruction walk -/

theorem lookupParent_cons_self {ps : List (Nat × Nat)} {k v : Nat} :
    lookupParent ((k, v) :: ps) k = some v := by
  simp [lookupParent, List.find?]

theorem lookupParent_cons_ne {ps : List (Nat × Nat)} {k v i : Nat}
    (h : k ≠ i) : lookupParent ((k, v) :: ps) i = lookupParent ps i := by
  have hb : (k == i) = false := by simpa using h
  simp [lookupParent, List.find?, hb]

theorem pathToAux_mono {articles : List String} {ps : List (Nat × Nat)} :
    ∀ {f f' c : Nat} {l : List String},
      pathToAux articles ps f c = some l → f ≤ f' →
      pathToAux articles ps f' c = some l := by
  intro f
  induction f with
  | zero =>
    intro f' c l h _
    cases c with
    | zero => simpa [pathToAux] using h
    | succ c => simp [pathToAux] at h
  | succ f ih =>
    intro f' c l h hle
    cases c with
    | zero => simpa [pathToAux] using h
    | succ c =>
      obtain ⟨f'', rfl⟩ : ∃ f'', f' = f'' + 1 := by
        cases f' with
        | zero => omega
        | succ x => exact ⟨x, rfl⟩
      cases hn : nth articles (c + 1) with
      | none => rw [pathToAux, hn] at h; exact absurd h (by simp)
      | some a =>
        cases hp : lookupParent ps (c + 1) with
        | none => rw [pathToAux, hn, hp] at h; exact absurd h (by simp)
        | some p =>
          simp only [pathToAux, hn, hp] at h
          rcases Option.map_eq_some'.mp h with ⟨l', hl', rfl⟩
          simp only [pathToAux, hn, hp, ih hl' (show f ≤ f'' by omega)]
          rfl

/-- Growing the registry by one fresh node does not change the
reconstruction walk of any index that the walk already resolved. -/
theorem pathToAux_stable {articles : List String} {ps : List (Nat × Nat)}
    {x : String} {v : Nat} :
    ∀ {f c : Nat} {l : List String},
      pathToAux articles ps f c = some l →
      pathToAux (articles ++ [x]) ((articles.length, v) :: ps) f c = some l := by
  intro f
  induction f with
  | zero =>
    intro c l h
    cases c with
    | zero => simpa [pathToAux] using h
    | succ c => simp [pathToAux] at h
  | succ f ih =>
    intro c l h
    cases c with
    | zero => simpa [pathToAux] using h
    | succ c =>
      cases hn : nth articles (c + 1) with
      | none => rw [pathToAux, hn] at h; exact absurd h (by simp)
      | some a =>
        cases hp : lookupParent ps (c + 1) with
        | none => rw [pathToAux, hn, hp] at h; exact absurd h (by simp)
        | some p =>
          simp only [pathToAux, hn, hp] at h
          rcases Option.map_eq_some'.mp h with ⟨l', hl', rfl⟩
          have hlt : c + 1 < articles.length := nth_some_lt hn
          simp only [pathToAux, nth_append_lt hlt, hn,
            lookupParent_cons_ne (show articles.length ≠ c + 1 by omega), hp, ih hl']
          rfl

/-- Unfolding of the walk at a positive index whose parent entry and
article are present. -/
theorem nodeChain_succ {st : SearchState} {i p : Nat} {a : String}
    {lp : List String} (h1 : 1 ≤ i) (hn : nth st.articles i = some a)
    (hp : lookupParent st.parents i = some p) (hpl : p < i)
    (hc : nodeChain st p = some lp) :
    nodeChain st i = some (a :: lp) := by
  obtain ⟨c, rfl⟩ : ∃ c, i = c + 1 := by
    cases i with
    | zero => omega
    | succ x => exact ⟨x, rfl⟩
  have hc' : pathToAux st.articles st.parents c p = some lp :=
    pathToAux_mono hc (by omega)
  simp only [nodeChain, pathToAux, hn, hp, hc']
  rfl

theorem nodeChain_zero {st : SearchState} : nodeChain st 0 = some [] := by
  simp [nodeChain, pathToAux]

/-! ## Lemmas about link extraction -/

theorem hrefCandidate_not_filtered {pre href n : String}
    (h : hrefCandidate pre href = some n) :
    n ≠ "Main_Page" ∧ containsColon n.data = false := by
  unfold hrefCandidate at h
  cases hs : stripPre? pre href with
  | none => rw [hs] at h; exact absurd h (by simp)
  | some n0 =>
    rw [hs] at h
    simp only at h
    split at h
    · exact absurd h (by simp)
    · rename_i hcond
      push_neg at hcond
      cases h
      exact ⟨hcond.1, by simpa using hcond.2⟩

theorem mem_extractLinks_not_filtered {ext : Bool} {pre : String}
    {es : List Element} {n : String} (h : n ∈ extractLinks ext pre es) :
    n ≠ "Main_Page" ∧ containsColon n.data = false := by
  induction es with
  | nil => simp [extractLinks] at h
  | cons e es ih =>
    unfold extractLinks at h
    split at h
    · simp at h
    · simp only at h
      split at h
      · cases hh : e.href with
        | none => simp only [hh] at h; exact ih h
        | some href =>
          simp only [hh] at h
          cases hc : hrefCandidate pre href with
          | none => simp only [hc] at h; exact ih h
          | some m =>
            simp only [hc] at h
            rcases List.mem_cons.mp h with rfl | h
            · exact hrefCandidate_not_filtered hc
            · exact ih h
      · exact ih h

theorem mem_candidates_not_filtered {cfg : Config} {a n : String}
    (h : n ∈ candidates cfg a) :
    n ≠ "Main_Page" ∧ containsColon n.data = false := by
  unfold candidates at h
  cases hf : cfg.fetch a with
  | none => rw [hf] at h; simp at h
  | some doc => rw [hf] at h; exact mem_extractLinks_not_filtered h

/-- With the external-links flag set, extraction is exactly: keep the
anchor elements and map their `href` through the candidate pipeline. -/
theorem extractLinks_true_eq (pre : String) (es : List Element) :
    extractLinks true pre es =
      es.filterMap
        (fun e => if e.name = "a" then e.href.bind (hrefCandidate pre) else none) := by
  induction es with
  | nil => rfl
  | cons e es ih =>
    unfold extractLinks
    simp only [Bool.true_eq_false, false_and, if_false, List.filterMap_cons]
    by_cases hn : e.name = "a"
    · cases hh : e.href with
      | none => simp [hn, hh, ih]
      | some href =>
        cases hc : hrefCandidate pre href with
        | none => simp [hn, hh, hc, ih, Option.bind]
        | some m => simp [hn, hh, hc, ih, Option.bind]
    · simp [hn, ih]

/-- Every extracted candidate arises from some anchor element of the
document through the prefix-strip / fragment-truncate / filter pipeline,
for either value of the external-links flag. -/
theorem mem_extractLinks_only {ext : Bool} {pre : String} {es : List Element}
    {n : String} (h : n ∈ extractLinks ext pre es) :
    ∃ e ∈ es, e.name = "a" ∧ ∃ href, e.href = some href ∧
      hrefCandidate pre href = some n := by
  induction es with
  | nil => simp [extractLinks] at h
  | cons e es ih =>
    unfold extractLinks at h
    split at h
    · simp at h
    · simp only at h
      split at h
      · rename_i hname
        cases hh : e.href with
        | none =>
          simp only [hh] at h
          rcases ih h with ⟨e', he', rest⟩
          exact ⟨e', List.mem_cons_of_mem _ he', rest⟩
        | some href =>
          simp only [hh] at h
          cases hc : hrefCandidate pre href with
          | none =>
            simp only [hc] at h
            rcases ih h with ⟨e', he', rest⟩
            exact ⟨e', List.mem_cons_of_mem _ he', rest⟩
          | some m =>
            simp only [hc] at h
            rcases List.mem_cons.mp h with rfl | h
            · exact ⟨e, List.mem_cons_self e es, hname, href, hh, hc⟩
            · rcases ih h with ⟨e', he', rest⟩
              exact ⟨e', List.mem_cons_of_mem _ he', rest⟩
      · rcases ih h with ⟨e', he', rest⟩
        exact ⟨e', List.mem_cons_of_mem _ he', rest⟩

theorem StepMono.rfl (st : SearchState) : StepMono st st :=
  ⟨fun _ _ h => h, fun _ _ h => h⟩

theorem StepMono.trans {s1 s2 s3 : SearchState}
    (h1 : StepMono s1 s2) (h2 : StepMono s2 s3) : StepMono s1 s3 :=
  ⟨fun j b h => h2.1 j b (h1.1 j b h), fun j l h => h2.2 j l (h1.2 j l h)⟩

theorem DoneOK.mono {cfg : Config} {st st' : SearchState} {d : Nat}
    {done : List String} (h : DoneOK cfg st d done) (hm : StepMono st st') :
    DoneOK cfg st' d done := by
  intro b hb hne
  rcases h b hb hne with ⟨j, lj, hj, hn, hc, hl⟩
  exact ⟨j, lj, hj, hm.1 j b hn, hm.2 j lj hc, hl⟩

theorem NodeInv.anyDepth {cfg : Config} {start : String} {d r : Nat}
    {st : SearchState} (h : NodeInv cfg start d r st) :
    ∀ j, 1 ≤ j → j < st.articles.length → ChainLenLe st j (d + 2) := by
  intro j hj hjl
  rcases Nat.lt_or_ge j st.currIdx with hlt | hge
  · rcases h.depthProc j hj hlt with ⟨l, hc, hl⟩
    exact ⟨l, hc, by omega⟩
  · rcases Nat.eq_or_lt_of_le hge with rfl | hgt
    · rcases h.depthCurNode with ⟨l, hc, hl⟩
      exact ⟨l, hc, by omega⟩
    · rcases Nat.lt_or_ge (st.currIdx + r) j with hnext | hrest
      · rcases h.depthNext j hnext hjl with ⟨l, hc, hl⟩
        exact ⟨l, hc, by omega⟩
      · rcases h.depthRest j hgt hrest with ⟨l, hc, hl⟩
        exact ⟨l, hc, by omega⟩

theorem NodeInv.toStop {cfg : Config} {start : String} {d r : Nat}
    {st : SearchState} (h : NodeInv cfg start d r st) :
    StopInv cfg start d st := by
  refine ⟨h.core, by have := h.arith; omega, ?_, h.fetchedLe, h.fetchedLen⟩
  intro i hi hile
  rcases Nat.eq_or_lt_of_le hile with rfl | hlt
  · rcases h.depthCurNode with ⟨l, hc, hl⟩
    exact ⟨l, hc, by omega⟩
  · exact h.depthProc i hi hlt

theorem StopInv.weaken {cfg : Config} {start : String} {d d' : Nat}
    {st : SearchState} (h : StopInv cfg start d st) (hle : d ≤ d') :
    StopInv cfg start d' st := by
  refine ⟨h.core, h.currLt, ?_, ?_, h.fetchedLen⟩
  · intro i hi hile
    rcases h.depthProc i hi hile with ⟨l, hc, hl⟩
    exact ⟨l, hc, by omega⟩
  · intro q hq
    exact le_trans (h.fetchedLe q hq) hle

theorem nodeChain_lt {st : SearchState} {i : Nat} {l : List String}
    (h : nodeChain st i = some l) (hi : 1 ≤ i) : i < st.articles.length := by
  obtain ⟨c, rfl⟩ : ∃ c, i = c + 1 := by
    cases i with
    | zero => omega
    | succ x => exact ⟨x, rfl⟩
  rw [nodeChain] at h
  cases hn : nth st.articles (c + 1) with
  | none =>
    rw [pathToAux, hn] at h
    exact absurd h (by simp)
  | some a => exact nth_some_lt hn

/-- The parent chain of the start node. -/
theorem nodeChain_one {start : String} {st : SearchState}
    (hsent : SentinelOK start st) (hpar : ParentsOK st) :
    nodeChain st 1 = some [start] := by
  have h1l : 1 < st.articles.length := nth_some_lt hsent.2
  rcases hpar 1 (by omega) h1l with ⟨p, hp, hplt, _⟩
  obtain rfl : p = 0 := by omega
  exact nodeChain_succ (by omega) hsent.2 hp (by omega) nodeChain_zero

/-- Soundness of the parent forest: the chain of every registered index
spells a walk of the induced link graph from the start article. -/
theorem nodeChain_spec {cfg : Config} {start : String} {st : SearchState}
    (hsent : SentinelOK start st) (hpar : ParentsOK st) (hedge : EdgesOK cfg st) :
    ∀ i, 1 ≤ i → i < st.articles.length →
      ∃ l b, nodeChain st i = some l ∧ nth st.articles i = some b ∧
        l.head? = some b ∧ l.getLast? = some start ∧ 1 ≤ l.length ∧
        GPath cfg start b (l.length - 1) := by
  intro i
  induction i using Nat.strong_induction_on with
  | _ i ih =>
    intro hi hil
    rcases Nat.lt_or_ge i 2 with h2 | h2
    · obtain rfl : i = 1 := by omega
      refine ⟨[start], start, nodeChain_one hsent hpar, hsent.2, rfl, rfl,
        by simp, ?_⟩
      exact GPath.refl start
    · rcases hedge i h2 hil with ⟨p, b, a, hp, hnb, hna, hcand⟩
      rcases hpar i (by omega) hil with ⟨p', hp', hp'lt, hp'pos⟩
      rw [hp] at hp'
      obtain rfl : p = p' := Option.some.inj hp'
      have hp1 : 1 ≤ p := hp'pos h2
      have hplen : p < st.articles.length := lt_trans hp'lt hil
      rcases ih p hp'lt hp1 hplen with ⟨lp, bp, hcp, hnbp, hheadp, hlastp, hlenp, hgp⟩
      obtain rfl : bp = a := by rw [hna] at hnbp; exact (Option.some.inj hnbp).symm
      have hchain : nodeChain st i = some (b :: lp) :=
        nodeChain_succ hi hnb hp hp'lt hcp
      obtain ⟨x, lp', rfl⟩ : ∃ x l', lp = x :: l' := by
        cases lp with
        | nil => simp at hlenp
        | cons x l' => exact ⟨x, l', rfl⟩
      refine ⟨b :: x :: lp', b, hchain, hnb, rfl, ?_, by simp, ?_⟩
      · rw [List.getLast?_cons_cons]
        exact hlastp
      · have hstep := GPath.step hgp hcand
        have hlen : (b :: x :: lp').length - 1 = ((x :: lp').length - 1) + 1 := by
          simp
        rw [hlen]
        exact hstep

/-- Minimality: when the target is not yet registered, all fully expanded
nodes are closed, and every node at or past the cursor has depth at least
`d`, no walk of the induced graph from the start to the target avoiding
empty intermediate identifiers has fewer than `d + 1` hops. -/
theorem no_shorter_aux {cfg : Config} {start : String} {st : SearchState}
    {d : Nat} (hsent : SentinelOK start st) (hpar : ParentsOK st)
    (hclosed : ∀ i, 1 ≤ i → i < st.currIdx → ClosedAt cfg st i)
    (hlow : ∀ i l, st.currIdx ≤ i → nodeChain st i = some l → d + 1 ≤ l.length) :
    ∀ {n : Nat} {b : String}, GPathNE cfg start b n → n < d → (b ≠ "" ∨ n = 0) →
      ∃ j lj, 1 ≤ j ∧ j < st.currIdx ∧ nth st.articles j = some b ∧
        nodeChain st j = some lj ∧ lj.length ≤ n + 1 := by
  intro n b h
  induction h with
  | refl =>
    intro hnd _
    have hchain : nodeChain st 1 = some [start] := nodeChain_one hsent hpar
    have h1cur : 1 < st.currIdx := by
      rcases Nat.lt_or_ge 1 st.currIdx with h | h
      · exact h
      · have := hlow 1 [start] h hchain
        simp at this
        omega
    exact ⟨1, [start], by omega, h1cur, hsent.2, hchain, by simp⟩
  | single hmem =>
    rename_i b'
    intro hnd hbne
    have hbne' : b' ≠ "" := by
      rcases hbne with h | h
      · exact h
      · omega
    have hchain : nodeChain st 1 = some [start] := nodeChain_one hsent hpar
    have h1cur : 1 < st.currIdx := by
      rcases Nat.lt_or_ge 1 st.currIdx with h | h
      · exact h
      · have := hlow 1 [start] h hchain
        simp at this
        omega
    rcases hclosed 1 (by omega) h1cur start hsent.2 b' hmem hbne' with
      ⟨j, lj, li, hj1, hnj, hcj, hci, hlen⟩
    obtain rfl : li = [start] := by rw [hchain] at hci; exact (Option.some.inj hci).symm
    have hjcur : j < st.currIdx := by
      rcases Nat.lt_or_ge j st.currIdx with h | h
      · exact h
      · have := hlow j lj h hcj
        simp at hlen
        omega
    exact ⟨j, lj, hj1, hjcur, hnj, hcj, by simpa using hlen⟩
  | step hpath hbmid hmem ih =>
    rename_i b' c' n'
    intro hnd hbne
    have hcne : c' ≠ "" := by
      rcases hbne with h | h
      · exact h
      · omega
    rcases ih (by omega) (Or.inl hbmid) with ⟨j', lj', hj'1, hj'cur, hnj', hcj', hlen'⟩
    rcases hclosed j' hj'1 hj'cur b' hnj' c' hmem hcne with
      ⟨j, lj, li, hj1, hnj, hcj, hci, hlen⟩
    obtain rfl : li = lj' := by rw [hcj'] at hci; exact (Option.some.inj hci).symm
    have hjcur : j < st.currIdx := by
      rcases Nat.lt_or_ge j st.currIdx with h | h
      · exact h
      · have := hlow j lj h hcj
        omega
    exact ⟨j, lj, hj1, hjcur, hnj, hcj, by omega⟩

theorem no_shorter {cfg : Config} {start : String} {st : SearchState}
    {d : Nat} (hsent : SentinelOK start st) (hpar : ParentsOK st)
    (hclosed : ∀ i, 1 ≤ i → i < st.currIdx → ClosedAt cfg st i)
    (hlow : ∀ i l, st.currIdx ≤ i → nodeChain st i = some l → d + 1 ≤ l.length)
    (hnotin : cfg.endName ∉ st.articles) :
    ∀ k, GPathNE cfg start cfg.endName k → d + 1 ≤ k := by
  intro k hk
  by_contra hcon
  push_neg at hcon
  have hkd : k ≤ d := by omega
  have hne : cfg.endName ≠ "" := by
    intro he
    exact hnotin (he ▸ nth_mem hsent.1)
  cases hk with
  | refl =>
    exact hnotin (nth_mem hsent.2)
  | single hmem =>
    have hchain : nodeChain st 1 = some [start] := nodeChain_one hsent hpar
    have h1cur : 1 < st.currIdx := by
      rcases Nat.lt_or_ge 1 st.currIdx with h | h
      · exact h
      · have := hlow 1 [start] h hchain
        simp at this
        omega
    rcases hclosed 1 (by omega) h1cur start hsent.2 cfg.endName hmem hne with
      ⟨j, lj, li, hj1, hnj, hcj, hci, hlen⟩
    exact hnotin (nth_mem hnj)
  | step hpath hbmid hmem =>
    rename_i b' n'
    rcases no_shorter_aux hsent hpar hclosed hlow hpath (by omega) (Or.inl hbmid)
      with ⟨j', lj', hj'1, hj'cur, hnj', hcj', hlen'⟩
    rcases hclosed j' hj'1 hj'cur b' hnj' cfg.endName hmem hne with
      ⟨j, lj, li, hj1, hnj, hcj, hci, hlen⟩
    exact hnotin (nth_mem hnj)

/-! ## Preservation of the invariants -/

/-- Lines 188-218 for one candidate preserve the mid-node invariant; the
state can only grow, the cursor and fetch log are untouched, and after the
step a nonempty candidate is registered at depth at most `d + 1`. -/
theorem processCandidate_inv {cfg : Config} {start : String} {d r : Nat}
    {st : SearchState} {name art : String}
    (hinv : NodeInv cfg start d r st)
    (hart : nth st.articles st.currIdx = some art)
    (hmem : name ∈ candidates cfg art) :
    NodeInv cfg start d r (processCandidate cfg st name).1 ∧
    StepMono st (processCandidate cfg st name).1 ∧
    (processCandidate cfg st name).1.currIdx = st.currIdx ∧
    (processCandidate cfg st name).1.fetched = st.fetched ∧
    (name ≠ "" → ∃ j lj, 1 ≤ j ∧
      nth (processCandidate cfg st name).1.articles j = some name ∧
      nodeChain (processCandidate cfg st name).1 j = some lj ∧
      lj.length ≤ d + 2) := by
  by_cases hin : name ∈ st.articles
  · have heq : processCandidate cfg st name = (st, false) := by
      simp [processCandidate, insertIfNew, hin]
    rw [heq]
    refine ⟨hinv, StepMono.rfl st, rfl, rfl, ?_⟩
    intro hne
    rcases mem_nth hin with ⟨j, hj⟩
    have hj1 : 1 ≤ j := by
      rcases Nat.eq_zero_or_pos j with rfl | h
      · exfalso
        rw [hinv.core.sent.1] at hj
        exact hne (Option.some.inj hj).symm
      · exact h
    rcases hinv.anyDepth j hj1 (nth_some_lt hj) with ⟨lj, hc, hl⟩
    exact ⟨j, lj, hj1, hj, hc, hl⟩
  · -- the candidate is fresh: it is pushed with parent `currIdx`
    rcases hinv.depthCurNode with ⟨liu, hciu, hliu⟩
    have hlen2 : 2 ≤ st.articles.length := by
      have := hinv.arith
      have := hinv.hcur
      omega
    have hiulen : st.currIdx < st.articles.length := by
      have := hinv.arith
      omega
    have hiur : st.currIdx + r < st.articles.length := by
      have := hinv.arith
      omega
    -- facts about the grown registry
    have hmono1 : ∀ j b, nth st.articles j = some b →
        nth (st.articles ++ [name]) j = some b := by
      intro j b h
      rw [nth_append_lt (nth_some_lt h)]
      exact h
    have hmono2 : ∀ j l, nodeChain st j = some l →
        pathToAux (st.articles ++ [name])
          ((st.articles.length, st.currIdx) :: st.parents) j j = some l := by
      intro j l h
      exact pathToAux_stable h
    have hnewnth : nth (st.articles ++ [name]) st.articles.length = some name :=
      nth_append_self
    have hnewpar : lookupParent ((st.articles.length, st.currIdx) :: st.parents)
        st.articles.length = some st.currIdx := lookupParent_cons_self
    -- the invariant for the grown state, shared by both target outcomes
    have hkey : ∀ res : List (List String),
        (res = st.results ∨
          (name = cfg.endName ∧
            res = st.results ++
              [(pathTo (st.articles ++ [name])
                  ((st.articles.length, st.currIdx) :: st.parents)
                  st.articles.length).getD []])) →
        NodeInv cfg start d r
          { st with
            articles := st.articles ++ [name]
            parents := (st.articles.length, st.currIdx) :: st.parents
            nextLevelLen := st.nextLevelLen + 1
            results := res } := by
      intro res hres
      set st' : SearchState :=
        { st with
          articles := st.articles ++ [name]
          parents := (st.articles.length, st.currIdx) :: st.parents
          nextLevelLen := st.nextLevelLen + 1
          results := res } with hst'
      have hchain' : nodeChain st' st.articles.length = some (name :: liu) := by
        refine nodeChain_succ (by omega) hnewnth hnewpar hiulen ?_
        exact hmono2 _ _ hciu
      have hsent' : SentinelOK start st' :=
        ⟨hmono1 0 "" hinv.core.sent.1, hmono1 1 start hinv.core.sent.2⟩
      have hlen' : st'.articles.length = st.articles.length + 1 := by
        simp [hst']
      have hpar' : ParentsOK st' := by
        intro i hi hil
        rw [hlen'] at hil
        rcases Nat.lt_or_ge i st.articles.length with hlt | hge
        · rcases hinv.core.parentsOK i hi hlt with ⟨p, hp, hplt, hppos⟩
          refine ⟨p, ?_, hplt, hppos⟩
          rw [show st'.parents = (st.articles.length, st.currIdx) :: st.parents
            from rfl, lookupParent_cons_ne (by omega)]
          exact hp
        · obtain rfl : i = st.articles.length := by omega
          exact ⟨st.currIdx, hnewpar, hiulen, fun _ => hinv.hcur⟩
      have hedge' : EdgesOK cfg st' := by
        intro i hi hil
        rw [hlen'] at hil
        rcases Nat.lt_or_ge i st.articles.length with hlt | hge
        · rcases hinv.core.edges i hi hlt with ⟨p, b, a, hp, hnb, hna, hcand⟩
          refine ⟨p, b, a, ?_, hmono1 _ _ hnb, hmono1 _ _ hna, hcand⟩
          rw [show st'.parents = (st.articles.length, st.currIdx) :: st.parents
            from rfl, lookupParent_cons_ne (by omega)]
          exact hp
        · obtain rfl : i = st.articles.length := by omega
          exact ⟨st.currIdx, name, art, hnewpar, hnewnth, hmono1 _ _ hart, hmem⟩
      have hresnew : st'.results = [] ∨ (cfg.endName ≠ "" ∧ cfg.endName ≠ start ∧
          cfg.endName ≠ "Main_Page" ∧ containsColon cfg.endName.data = false) := by
        rcases hres with rfl | ⟨hend, rfl⟩
        · exact hinv.core.resNew
        · right
          have hne : name ≠ "" := fun h => hin (by rw [h]; exact nth_mem hinv.core.sent.1)
          have hns : name ≠ start := fun h => hin (by rw [h]; exact nth_mem hinv.core.sent.2)
          have hf := mem_candidates_not_filtered hmem
          rw [← hend]
          exact ⟨hne, hns, hf.1, hf.2⟩
      have hresK : cfg.endName ∉ st'.articles → st'.results = [] := by
        intro hnot
        have hnotA : cfg.endName ∉ st.articles := by
          intro hA
          exact hnot (by
            show cfg.endName ∈ st.articles ++ [name]
            exact List.mem_append_left _ hA)
        rcases hres with rfl | ⟨hend, rfl⟩
        · exact hinv.core.resK hnotA
        · exfalso
          exact hnot (by
            show cfg.endName ∈ st.articles ++ [name]
            exact hend ▸ List.mem_append_right _ (by simp))
      have hpathval : pathTo (st.articles ++ [name])
          ((st.articles.length, st.currIdx) :: st.parents) st.articles.length =
          some (name :: liu).reverse := by
        have : pathToAux (st.articles ++ [name])
            ((st.articles.length, st.currIdx) :: st.parents)
            st.articles.length st.articles.length = some (name :: liu) := hchain'
        rw [pathTo, this]
        rfl
      have hresLen : st'.results.length ≤ 1 := by
        rcases hres with rfl | ⟨hend, rfl⟩
        · exact hinv.core.resLen
        · have h0 : st.results = [] :=
            hinv.core.resK (fun hA => hin (hend ▸ hA))
          simp [h0]
      have hresOK : ResultsOK cfg start st' := by
        rcases hres with rfl | ⟨hend, rfl⟩
        · intro rr hrr
          exact hinv.core.resultsOK rr hrr
        · intro rr hrr
          have h0 : st.results = [] :=
            hinv.core.resK (fun hA => hin (by rw [hend]; exact hA))
          have hrr2 : rr ∈ st.results ++
              [(pathTo (st.articles ++ [name])
                  ((st.articles.length, st.currIdx) :: st.parents)
                  st.articles.length).getD []] := hrr
          rw [h0] at hrr2
          simp only [List.nil_append, List.mem_singleton] at hrr2
          subst hrr2
          rw [hpathval]
          have hlenpath : ((name :: liu).reverse).length = d + 2 := by
            simp [hliu]
          constructor
          · simp
          constructor
          · -- soundness: the recorded path is a graph walk
            rcases nodeChain_spec hsent' hpar' hedge' st.articles.length
                (by omega) (by omega) with ⟨l, b, hc, hnb, _, _, _, hg⟩
            rw [hchain'] at hc
            obtain rfl : l = name :: liu := (Option.some.inj hc).symm
            rw [hnewnth] at hnb
            have hb : b = name := (Option.some.inj hnb).symm
            rw [hb] at hg
            have : (Option.getD (some (name :: liu).reverse) []).length - 1 =
                (name :: liu).length - 1 := by simp
            rw [this]
            exact hend ▸ hg
          · -- minimality: no shorter clean walk exists
            intro k hk
            have hlow : ∀ i l, st.currIdx ≤ i → nodeChain st i = some l →
                d + 1 ≤ l.length := by
              intro i l hge hc
              have hi1 : 1 ≤ i := le_trans hinv.hcur hge
              have hil : i < st.articles.length := nodeChain_lt hc hi1
              rcases Nat.eq_or_lt_of_le hge with rfl | hgt
              · rw [hciu] at hc
                obtain rfl : liu = l := Option.some.inj hc
                omega
              · rcases Nat.lt_or_ge i (st.currIdx + r + 1) with hrest | hnext
                · rcases hinv.depthRest i hgt (by omega) with ⟨l', hc', hl'⟩
                  rw [hc'] at hc
                  obtain rfl : l' = l := Option.some.inj hc
                  omega
                · rcases hinv.depthNext i (by omega) hil with ⟨l', hc', hl'⟩
                  rw [hc'] at hc
                  obtain rfl : l' = l := Option.some.inj hc
                  omega
            have := no_shorter hinv.core.sent hinv.core.parentsOK hinv.closed
              hlow (hend ▸ hin) k hk
            have hgd : (Option.getD (some (name :: liu).reverse) []).length - 1 =
                d + 1 := by simp [hliu]
            omega
      refine ⟨⟨hsent', hpar', hedge', hresnew, hresK, hresLen, hresOK⟩,
        hinv.hcur, ?_, ?_, ?_, ?_, ?_, ?_, hinv.fetchedLe, hinv.fetchedLen⟩
      · -- arith
        have := hinv.arith
        simp only [hst', List.length_append, List.length_cons, List.length_nil]
        omega
      · -- depthProc
        intro i hi hilt
        rcases hinv.depthProc i hi hilt with ⟨l, hc, hl⟩
        exact ⟨l, hmono2 _ _ hc, hl⟩
      · -- depthCurNode
        exact ⟨liu, hmono2 _ _ hciu, hliu⟩
      · -- depthRest
        intro i hgt hle
        rcases hinv.depthRest i hgt hle with ⟨l, hc, hl⟩
        exact ⟨l, hmono2 _ _ hc, hl⟩
      · -- depthNext
        intro i hgt hil
        rw [hlen'] at hil
        rcases Nat.lt_or_ge i st.articles.length with hlt | hge
        · rcases hinv.depthNext i hgt hlt with ⟨l, hc, hl⟩
          exact ⟨l, hmono2 _ _ hc, hl⟩
        · obtain rfl : i = st.articles.length := by omega
          exact ⟨name :: liu, hchain', by simp [hliu]⟩
      · -- closed
        intro i hi hilt a' hna' b hb hbne
        have hcc : st'.currIdx = st.currIdx := rfl
        have hna : nth st.articles i = some a' := by
          have hil : i < st.articles.length := by omega
          rw [show st'.articles = st.articles ++ [name] from rfl,
            nth_append_lt hil] at hna'
          exact hna'
        rcases hinv.closed i hi hilt a' hna b hb hbne with
          ⟨j, lj, li, hj1, hnj, hcj, hci, hl⟩
        exact ⟨j, lj, li, hj1, hmono1 _ _ hnj, hmono2 _ _ hcj, hmono2 _ _ hci, hl⟩
    -- now compute the step in the two target outcomes
    by_cases hend : name = cfg.endName
    · have heq : processCandidate cfg st name =
          ({ st with
             articles := st.articles ++ [name]
             parents := (st.articles.length, st.currIdx) :: st.parents
             nextLevelLen := st.nextLevelLen + 1
             results := st.results ++
               [(pathTo (st.articles ++ [name])
                   ((st.articles.length, st.currIdx) :: st.parents)
                   st.articles.length).getD []] }, !cfg.all) := by
        simp only [processCandidate, insertIfNew, if_neg hin, if_pos hend]
      rw [heq]
      refine ⟨hkey _ (Or.inr ⟨hend, rfl⟩), ⟨hmono1, hmono2⟩, rfl, rfl, ?_⟩
      intro hne
      refine ⟨st.articles.length, name :: liu, by omega, hnewnth, ?_, by simp [hliu]⟩
      exact nodeChain_succ (by omega) hnewnth hnewpar hiulen (hmono2 _ _ hciu)
    · have heq : processCandidate cfg st name =
          ({ st with
             articles := st.articles ++ [name]
             parents := (st.articles.length, st.currIdx) :: st.parents
             nextLevelLen := st.nextLevelLen + 1 }, false) := by
        simp only [processCandidate, insertIfNew, if_neg hin, if_neg hend]
      rw [heq]
      refine ⟨?_, ⟨hmono1, hmono2⟩, rfl, rfl, ?_⟩
      · have := hkey st.results (Or.inl rfl)
        exact this
      · intro hne
        refine ⟨st.articles.length, name :: liu, by omega, hnewnth, ?_, by simp [hliu]⟩
        exact nodeChain_succ (by omega) hnewnth hnewpar hiulen (hmono2 _ _ hciu)

/-- `CoreInv` only depends on the registry and the results. -/
theorem CoreInv.ofEq {cfg : Config} {start : String} {st st' : SearchState}
    (h : CoreInv cfg start st) (h1 : st'.articles = st.articles)
    (h2 : st'.parents = st.parents) (h3 : st'.results = st.results) :
    CoreInv cfg start st' := by
  refine ⟨?_, ?_, ?_, ?_, ?_, ?_, ?_⟩
  · show nth st'.articles 0 = some "" ∧ nth st'.articles 1 = some start
    rw [h1]
    exact h.sent
  · show ∀ i, 1 ≤ i → i < st'.articles.length → _
    rw [h1]
    intro i hi hil
    rcases h.parentsOK i hi hil with ⟨p, hp, hplt, hppos⟩
    refine ⟨p, ?_, hplt, hppos⟩
    rw [h2]
    exact hp
  · show ∀ i, 2 ≤ i → i < st'.articles.length → _
    rw [h1]
    intro i hi hil
    rcases h.edges i hi hil with ⟨p, b, a, hp, hnb, hna, hc⟩
    refine ⟨p, b, a, ?_, hnb, hna, hc⟩
    rw [h2]
    exact hp
  · rw [h3]; exact h.resNew
  · rw [h1, h3]; exact h.resK
  · rw [h3]; exact h.resLen
  · show ∀ rr ∈ st'.results, _
    rw [h3]
    exact h.resultsOK

/-- The candidate loop preserves the mid-node invariant; if it runs to the
end of the list without the early return, all processed candidates are
registered close to the current node's depth. -/
theorem processCandidates_inv {cfg : Config} {start : String} {d r : Nat} :
    ∀ (ns : List String) (st : SearchState) (done : List String) (art : String),
      NodeInv cfg start d r st →
      nth st.articles st.currIdx = some art →
      DoneOK cfg st d done →
      candidates cfg art = done ++ ns →
      NodeInv cfg start d r (processCandidates cfg st ns).1 ∧
      StepMono st (processCandidates cfg st ns).1 ∧
      (processCandidates cfg st ns).1.currIdx = st.currIdx ∧
      (processCandidates cfg st ns).1.fetched = st.fetched ∧
      ((processCandidates cfg st ns).2 = false →
        DoneOK cfg (processCandidates cfg st ns).1 d (done ++ ns)) := by
  intro ns
  induction ns with
  | nil =>
    intro st done art hinv hart hdone hsplit
    simp only [processCandidates]
    exact ⟨hinv, StepMono.rfl st, trivial, trivial, fun _ => by simpa using hdone⟩
  | cons n ns ih =>
    intro st done art hinv hart hdone hsplit
    have hmem : n ∈ candidates cfg art := by rw [hsplit]; simp
    obtain ⟨h1, h2, h3, h4, h5⟩ := processCandidate_inv hinv hart hmem
    cases hpc : processCandidate cfg st n with
    | mk st1 stop =>
      rw [hpc] at h1 h2 h3 h4 h5
      cases stop with
      | true =>
        simp only [processCandidates, hpc]
        exact ⟨h1, h2, h3, h4, fun hc => absurd hc (by simp)⟩
      | false =>
        simp only [processCandidates, hpc]
        have hart1 : nth st1.articles st1.currIdx = some art := by
          rw [h3]
          exact h2.1 _ _ hart
        have hdone1 : DoneOK cfg st1 d (done ++ [n]) := by
          intro b hb hbne
          rcases List.mem_append.mp hb with hb | hb
          · exact (hdone.mono h2) b hb hbne
          · simp only [List.mem_singleton] at hb
            subst hb
            exact h5 hbne
        have hsplit1 : candidates cfg art = (done ++ [n]) ++ ns := by
          rw [hsplit]
          simp
        obtain ⟨g1, g2, g3, g4, g5⟩ := ih st1 (done ++ [n]) art h1 hart1 hdone1 hsplit1
        refine ⟨g1, h2.trans g2, by rw [g3, h3], by rw [g4, h4], ?_⟩
        intro hfalse
        have := g5 hfalse
        simpa [List.append_assoc] using this

/-- Chains only depend on the registry. -/
theorem nodeChain_congr {st st' : SearchState}
    (h1 : st'.articles = st.articles) (h2 : st'.parents = st.parents) :
    ∀ i, nodeChain st' i = nodeChain st i := by
  intro i
  rw [nodeChain, nodeChain, h1, h2]

/-- The mid-node invariant only depends on the fields it mentions. -/
theorem NodeInv.ofFieldsEq {cfg : Config} {start : String} {d r : Nat}
    {st st' : SearchState} (h : NodeInv cfg start d r st)
    (h1 : st'.articles = st.articles) (h2 : st'.parents = st.parents)
    (h3 : st'.results = st.results) (h4 : st'.currIdx = st.currIdx)
    (h5 : st'.nextLevelLen = st.nextLevelLen) (h6 : st'.fetched = st.fetched) :
    NodeInv cfg start d r st' := by
  have hch := nodeChain_congr h1 h2
  have hCIs : ∀ i n, ChainLenIs st i n → ChainLenIs st' i n := by
    intro i n ⟨l, hc, hl⟩
    exact ⟨l, by rw [hch]; exact hc, hl⟩
  have hCLe : ∀ i n, ChainLenLe st i n → ChainLenLe st' i n := by
    intro i n ⟨l, hc, hl⟩
    exact ⟨l, by rw [hch]; exact hc, hl⟩
  have hCA : ∀ i, ClosedAt cfg st i → ClosedAt cfg st' i := by
    intro i hcl a hna b hb hbne
    rw [h1] at hna
    rcases hcl a hna b hb hbne with ⟨j, lj, li, hj1, hnj, hcj, hci, hl⟩
    exact ⟨j, lj, li, hj1, by rw [h1]; exact hnj, by rw [hch]; exact hcj,
      by rw [hch]; exact hci, hl⟩
  refine ⟨CoreInv.ofEq h.core h1 h2 h3, ?_, ?_, ?_, ?_, ?_, ?_, ?_, ?_, ?_⟩
  · rw [h4]; exact h.hcur
  · rw [h1, h4, h5]; exact h.arith
  · intro i hi hilt
    rw [h4] at hilt
    exact hCLe i _ (h.depthProc i hi hilt)
  · rw [h4]
    exact hCIs _ _ h.depthCurNode
  · intro i hgt hle
    rw [h4] at hgt hle
    exact hCIs i _ (h.depthRest i hgt hle)
  · intro i hgt hil
    rw [h4] at hgt
    rw [h1] at hil
    exact hCIs i _ (h.depthNext i hgt hil)
  · intro i hi hilt
    rw [h4] at hilt
    exact hCA i (h.closed i hi hilt)
  · rw [h6]; exact h.fetchedLe
  · rw [h6, h4]; exact h.fetchedLen

/-- Advancing the cursor onto the next node of the level and logging its
fetch turns the between-nodes invariant into the mid-node invariant. -/
theorem NodesInv.advance {cfg : Config} {start : String} {d r : Nat}
    {st st1 : SearchState} (hinv : NodesInv cfg start d (r + 1) st)
    (h1 : st1.articles = st.articles) (h2 : st1.parents = st.parents)
    (h3 : st1.results = st.results) (h4 : st1.currIdx = st.currIdx + 1)
    (h5 : st1.nextLevelLen = st.nextLevelLen)
    (h6 : st1.fetched = st.fetched ++ [(nthD st.articles (st.currIdx + 1) "", d)]) :
    NodeInv cfg start d r st1 := by
  have hch := nodeChain_congr h1 h2
  have harith := hinv.arith
  refine ⟨CoreInv.ofEq hinv.core h1 h2 h3, ?_, ?_, ?_, ?_, ?_, ?_, ?_, ?_, ?_⟩
  · rw [h4]; omega
  · rw [h1, h4, h5]; omega
  · intro i hi hilt
    rw [h4] at hilt
    rcases hinv.depthProc i hi (by omega) with ⟨l, hc, hl⟩
    exact ⟨l, by rw [hch]; exact hc, hl⟩
  · rw [h4]
    rcases hinv.depthCur (st.currIdx + 1) (by omega) (by omega) with ⟨l, hc, hl⟩
    exact ⟨l, by rw [hch]; exact hc, hl⟩
  · intro i hgt hle
    rw [h4] at hgt hle
    rcases hinv.depthCur i (by omega) (by omega) with ⟨l, hc, hl⟩
    exact ⟨l, by rw [hch]; exact hc, hl⟩
  · intro i hgt hil
    rw [h4] at hgt
    rw [h1] at hil
    rcases hinv.depthNext i (by omega) hil with ⟨l, hc, hl⟩
    exact ⟨l, by rw [hch]; exact hc, hl⟩
  · intro i hi hilt
    rw [h4] at hilt
    intro a hna b hb hbne
    rw [h1] at hna
    rcases hinv.closed i hi (by omega) a hna b hb hbne with
      ⟨j, lj, li, hj1, hnj, hcj, hci, hl⟩
    exact ⟨j, lj, li, hj1, by rw [h1]; exact hnj, by rw [hch]; exact hcj,
      by rw [hch]; exact hci, hl⟩
  · rw [h6]
    intro q hq
    rcases List.mem_append.mp hq with hq | hq
    · exact hinv.fetchedLe q hq
    · simp only [List.mem_singleton] at hq
      subst hq
      exact le_refl d
  · rw [h6, h4, List.length_append]
    have := hinv.fetchedLen
    simp
    omega

/-- When the node being expanded is closed, the mid-node invariant yields
the between-nodes invariant for the remaining nodes of the level. -/
theorem NodeInv.finishNode {cfg : Config} {start : String} {d r : Nat}
    {st : SearchState} (hinv : NodeInv cfg start d r st)
    (hclosedCur : ClosedAt cfg st st.currIdx) :
    NodesInv cfg start d r st := by
  refine ⟨hinv.core, hinv.arith, ?_, hinv.depthRest, hinv.depthNext, ?_,
    hinv.fetchedLe, hinv.fetchedLen⟩
  · intro i hi hile
    rcases Nat.eq_or_lt_of_le hile with rfl | hlt
    · rcases hinv.depthCurNode with ⟨l, hc, hl⟩
      exact ⟨l, hc, by omega⟩
    · exact hinv.depthProc i hi hlt
  · intro i hi hile
    rcases Nat.eq_or_lt_of_le hile with rfl | hlt
    · exact hclosedCur
    · exact hinv.closed i hi hlt

/-- One node expansion preserves the between-nodes invariant: a fetch
failure contributes no children, a successful fetch runs the candidate
loop on the extraction of the page. -/
theorem processNode_inv {cfg : Config} {start : String} {d r : Nat}
    {st : SearchState} (hinv : NodesInv cfg start d (r + 1) st) :
    ((processNode cfg st d).2 = false →
      NodesInv cfg start d r (processNode cfg st d).1) ∧
    ((processNode cfg st d).2 = true →
      StopInv cfg start d (processNode cfg st d).1) := by
  have harith := hinv.arith
  have hidxlen : st.currIdx + 1 < st.articles.length := by omega
  rcases nth_lt_some hidxlen with ⟨a, ha⟩
  have hartD : nthD st.articles (st.currIdx + 1) "" = a := nthD_of_nth _ ha
  have hnode1 : NodeInv cfg start d r
      { st with
        currIdx := st.currIdx + 1
        fetched := st.fetched ++ [(a, d)] } :=
    hinv.advance rfl rfl rfl rfl rfl (by rw [hartD])
  cases hf : cfg.fetch a with
  | none =>
    have heqN : processNode cfg st d =
        ({ st with
           currIdx := st.currIdx + 1
           fetched := st.fetched ++ [(a, d)]
           errors := st.errors ++ [a] }, false) := by
      simp only [processNode, hartD, hf]
    rw [heqN]
    refine ⟨fun _ => ?_, fun hc => by simp at hc⟩
    have hnode2 : NodeInv cfg start d r
        { st with
          currIdx := st.currIdx + 1
          fetched := st.fetched ++ [(a, d)]
          errors := st.errors ++ [a] } :=
      hnode1.ofFieldsEq rfl rfl rfl rfl rfl rfl
    refine hnode2.finishNode ?_
    intro a' hna' b hb _
    have hna2 : nth st.articles (st.currIdx + 1) = some a' := hna'
    rw [ha] at hna2
    have haa : a' = a := (Option.some.inj hna2).symm
    rw [haa] at hb
    rw [show candidates cfg a = [] by simp [candidates, hf]] at hb
    simp at hb
  | some doc =>
    have heqS : processNode cfg st d =
        processCandidates cfg
          { st with
            currIdx := st.currIdx + 1
            fetched := st.fetched ++ [(a, d)] }
          (extractLinks cfg.external cfg.pre doc) := by
      simp only [processNode, hartD, hf]
    rw [heqS]
    have hcand_eq : candidates cfg a = [] ++ extractLinks cfg.external cfg.pre doc := by
      simp [candidates, hf]
    have hart1 : nth st.articles (st.currIdx + 1) = some a := ha
    have hdone0 : DoneOK cfg
        { st with
          currIdx := st.currIdx + 1
          fetched := st.fetched ++ [(a, d)] } d [] := by
      intro b hb
      simp at hb
    obtain ⟨g1, g2, g3, g4, g5⟩ := processCandidates_inv
      (extractLinks cfg.external cfg.pre doc) _ [] a hnode1 hart1 hdone0 hcand_eq
    have g3' : (processCandidates cfg
        { st with
          currIdx := st.currIdx + 1
          fetched := st.fetched ++ [(a, d)] }
        (extractLinks cfg.external cfg.pre doc)).1.currIdx = st.currIdx + 1 := g3
    constructor
    · intro hflag
      refine g1.finishNode ?_
      intro a' hna' b hb hbne
      rw [g3'] at hna'
      have hna2 := g2.1 (st.currIdx + 1) a ha
      rw [hna'] at hna2
      have haa : a' = a := Option.some.inj hna2
      rw [haa] at hb
      have hdone2 : DoneOK cfg (processCandidates cfg
          { st with
            currIdx := st.currIdx + 1
            fetched := st.fetched ++ [(a, d)] }
          (extractLinks cfg.external cfg.pre doc)).1 d (candidates cfg a) := by
        rw [hcand_eq]
        exact g5 hflag
      rcases hdone2 b hb hbne with ⟨j, lj, hj1, hnj, hcj, hlj⟩
      rcases g1.depthCurNode with ⟨li, hci, hli⟩
      exact ⟨j, lj, li, hj1, hnj, hcj, hci, by omega⟩
    · intro hflag
      exact g1.toStop

/-- The level loop preserves the invariant, ending either between levels
or in a stop state. -/
theorem processLevel_inv {cfg : Config} {start : String} {d : Nat} :
    ∀ (r : Nat) (st : SearchState), NodesInv cfg start d r st →
      ((processLevel cfg st d r).2 = false →
        NodesInv cfg start d 0 (processLevel cfg st d r).1) ∧
      ((processLevel cfg st d r).2 = true →
        StopInv cfg start d (processLevel cfg st d r).1) := by
  intro r
  induction r with
  | zero =>
    intro st hinv
    simp only [processLevel]
    exact ⟨fun _ => hinv, fun hc => by simp at hc⟩
  | succ r ih =>
    intro st hinv
    have h := processNode_inv hinv
    cases hpn : processNode cfg st d with
    | mk st1 stop =>
      rw [hpn] at h
      cases stop with
      | true =>
        simp only [processLevel, hpn]
        exact ⟨fun hc => by simp at hc, fun _ => h.2 rfl⟩
      | false =>
        simp only [processLevel, hpn]
        exact ih st1 (h.1 rfl)

/-- After a finished level, the state satisfies the entry invariant of the
next level. -/
theorem levelStep {cfg : Config} {start : String} {d : Nat}
    {st : SearchState} (hinv : NodesInv cfg start d 0 st) :
    EntryInv cfg start (d + 1) st := by
  have harith : st.currIdx + 0 + st.nextLevelLen + 1 = st.articles.length :=
    hinv.arith
  have e1 : ({ st with nextLevelLen := 0 } : SearchState).currIdx = st.currIdx := rfl
  have e2 : ({ st with nextLevelLen := 0 } : SearchState).articles.length =
    st.articles.length := rfl
  have e3 : ({ st with nextLevelLen := 0 } : SearchState).nextLevelLen = 0 := rfl
  refine ⟨?_, ?_, ?_⟩
  · refine ⟨CoreInv.ofEq hinv.core rfl rfl rfl, ?_, ?_, ?_, ?_, ?_, ?_, ?_⟩
    · show st.currIdx + st.nextLevelLen + 0 + 1 = st.articles.length
      omega
    · intro i hi hile
      rcases hinv.depthProc i hi hile with ⟨l, hc, hl⟩
      exact ⟨l, hc, by omega⟩
    · intro i hgt hle
      rcases hinv.depthNext i (by omega) (by omega) with ⟨l, hc, hl⟩
      exact ⟨l, hc, by omega⟩
    · intro i hgt hil
      exfalso
      have hlen : ({ st with nextLevelLen := 0 } : SearchState).articles.length =
        st.articles.length := rfl
      rw [hlen] at hil
      omega
    · exact hinv.closed
    · intro q hq
      exact le_trans (hinv.fetchedLe q hq) (by omega)
    · exact hinv.fetchedLen
  · intro q hq
    have := hinv.fetchedLe q hq
    omega
  · exact hinv.depthProc

/-- The level loop of lines 120-226 keeps the invariant; with `fuel`
levels left at depth `d` where `d + fuel = M + 1`, the final state
satisfies the stop invariant at `M`. -/
theorem runLevels_inv {cfg : Config} {start : String} {M : Nat} :
    ∀ (fuel d : Nat) (st : SearchState), EntryInv cfg start d st →
      d + fuel = M + 1 →
      StopInv cfg start M (runLevels cfg st d fuel) := by
  intro fuel
  induction fuel with
  | zero =>
    intro d st hinv hdf
    obtain rfl : d = M + 1 := by omega
    simp only [runLevels]
    have harith : st.currIdx + st.nextLevelLen + 0 + 1 = st.articles.length :=
      hinv.nodes.arith
    refine ⟨CoreInv.ofEq hinv.nodes.core rfl rfl rfl, by omega, ?_, ?_, ?_⟩
    · intro i hi hile
      exact hinv.entryProc i hi hile
    · intro q hq
      have := hinv.entryFetched q hq
      omega
    · exact hinv.nodes.fetchedLen
  | succ fuel ih =>
    intro d st hinv hdf
    simp only [runLevels]
    have h := processLevel_inv st.nextLevelLen { st with nextLevelLen := 0 }
      hinv.nodes
    cases hpl : processLevel cfg { st with nextLevelLen := 0 } d st.nextLevelLen with
    | mk st1 stop =>
      rw [hpl] at h
      cases stop with
      | true =>
        exact (h.2 rfl).weaken (by omega)
      | false =>
        exact ih (d + 1) st1 (levelStep (h.1 rfl)) (by omega)

/-- The entry invariant holds at the start of the search. -/
theorem initState_entry (cfg : Config) (start : String) :
    EntryInv cfg start 0 (initState start) := by
  have hsent : SentinelOK start { initState start with nextLevelLen := 0 } :=
    ⟨rfl, rfl⟩
  have hpar : ParentsOK { initState start with nextLevelLen := 0 } := by
    intro i hi hil
    have hl2 : ({ initState start with nextLevelLen := 0 } :
        SearchState).articles.length = 2 := rfl
    rw [hl2] at hil
    obtain rfl : i = 1 := by omega
    exact ⟨0, rfl, by omega, by omega⟩
  have e1 : ({ initState start with nextLevelLen := 0 } : SearchState).currIdx = 0 := rfl
  have e2 : ({ initState start with nextLevelLen := 0 } :
    SearchState).articles.length = 2 := rfl
  have e3 : (initState start).nextLevelLen = 1 := rfl
  have e4 : ({ initState start with nextLevelLen := 0 } :
    SearchState).nextLevelLen = 0 := rfl
  refine ⟨⟨⟨hsent, hpar, ?_, Or.inl rfl, fun _ => rfl, by simp [initState], ?_⟩,
    ?_, ?_, ?_, ?_, ?_, ?_, ?_⟩, ?_, ?_⟩
  · intro i hi hil
    have hl2 : ({ initState start with nextLevelLen := 0 } :
        SearchState).articles.length = 2 := rfl
    rw [hl2] at hil
    omega
  · intro rr hrr
    simp [initState] at hrr
  · show 0 + 1 + 0 + 1 = 2
    rfl
  · intro i hi hile
    have hile' : i ≤ 0 := hile
    omega
  · intro i hgt hle
    have hgt' : 0 < i := hgt
    have hle' : i ≤ 0 + 1 := hle
    obtain rfl : i = 1 := by omega
    refine ⟨[start], ?_, rfl⟩
    exact nodeChain_one hsent hpar
  · intro i hgt hil
    exfalso
    have hgt' : 0 + 1 < i := hgt
    have hil' : i < 2 := hil
    omega
  · intro i hi hile
    have hile' : i ≤ 0 := hile
    omega
  · intro q hq
    simp [initState] at hq
  · rfl
  · intro q hq
    simp [initState] at hq
  · intro i hi hile
    have hile' : i ≤ 0 := hile
    omega

/-- The stop invariant for the final state of `cmd_path`. -/
theorem cmdPath_inv (cfg : Config) (start : String) (maxDepth : Nat) :
    StopInv cfg start maxDepth (cmdPath cfg start maxDepth) :=
  runLevels_inv (maxDepth + 1) 0 (initState start)
    (initState_entry cfg start) (by omega)

/-! ## Claim theorems -/

/-- C2: for every document body, extraction keeps exactly the anchor
elements whose link target starts with the configured prefix; the
candidate of an `href` is obtained by stripping the prefix, truncating at
the first `#` and discarding `Main_Page` and names containing `':'`; and
the four-link example document yields exactly `Real_Article` and `Y` in
document order, for either value of the external-links flag. -/
theorem extraction_filter :
    (∀ (pre : String) (es : List Element), extractLinks true pre es =
      es.filterMap
        (fun e => if e.name = "a" then e.href.bind (hrefCandidate pre) else none)) ∧
    (∀ (ext : Bool) (pre : String) (es : List Element) (n : String),
      n ∈ extractLinks ext pre es →
      ∃ e ∈ es, e.name = "a" ∧ ∃ href, e.href = some href ∧
        hrefCandidate pre href = some n) ∧
    (∀ (pre href n : String), hrefCandidate pre href = some n ↔
      ∃ rest, dropPre? pre.data href.data = some rest ∧
        n.data = takeUntilHash rest ∧ n ≠ "Main_Page" ∧
        containsColon n.data = false) ∧
    (∀ ext : Bool, extractLinks ext "/wiki/" exampleDoc = ["Real_Article", "Y"]) := by
  refine ⟨extractLinks_true_eq, fun ext pre es n h => mem_extractLinks_only h,
    ?_, ?_⟩
  · intro pre href n
    constructor
    · intro h
      unfold hrefCandidate at h
      cases hs : stripPre? pre href with
      | none => rw [hs] at h; exact absurd h (by simp)
      | some n0 =>
        rw [hs] at h
        simp only at h
        split at h
        · exact absurd h (by simp)
        · rename_i hcond
          push_neg at hcond
          cases h
          rcases Option.map_eq_some'.mp hs with ⟨cs, hcs, rfl⟩
          exact ⟨cs, hcs, rfl, hcond.1, by simpa using hcond.2⟩
    · intro ⟨rest, hdrop, hn, hmp, hcol⟩
      obtain ⟨ndata⟩ := n
      simp only [String.data] at hn hcol
      subst hn
      unfold hrefCandidate
      rw [show stripPre? pre href = some ⟨rest⟩ by rw [stripPre?, hdrop]; rfl]
      simp only
      rw [if_neg]
      rintro (hc | hc)
      · exact hmp hc
      · rw [hc] at hcol
        simp at hcol
  · intro ext
    cases ext with
    | false => decide
    | true => decide

/-- C2 witness: the general parts of `extraction_filter` evaluated on the
example document with the anonymous prefix. -/
theorem extraction_filter_witness :
    extractLinks true "/wiki/" exampleDoc =
      exampleDoc.filterMap
        (fun e => if e.name = "a" then e.href.bind (hrefCandidate "/wiki/") else none) ∧
    extractLinks false "/wiki/" exampleDoc = ["Real_Article", "Y"] :=
  ⟨extraction_filter.1 "/wiki/" exampleDoc, extraction_filter.2.2.2 false⟩

/-- C3 counterexample: the empty identifier is absent from the registry at
indices at least 1, yet `insert_if_new` refuses it, because the membership
check of line 188 also sees the sentinel at index 0. -/
theorem insert_if_new_sentinel_cex :
    (insertIfNew ["", "A"] [(1, 0)] "" 1).1 = none ∧
    "" ∉ (["", "A"] : List String).drop 1 := by
  constructor
  · decide
  · decide

/-- C3 (amended): `insert_if_new` returns the fresh index, appends the
identifier and records the parent edge exactly when the identifier is not
present anywhere in the registry, the sentinel at index 0 included; when
it is present anywhere (sentinel included) it returns nothing and performs
no mutation. -/
theorem insert_if_new_spec (articles : List String) (ps : List (Nat × Nat))
    (name : String) (parentIdx : Nat) :
    (name ∈ articles →
      insertIfNew articles ps name parentIdx = (none, articles, ps)) ∧
    (name ∉ articles →
      insertIfNew articles ps name parentIdx =
        (some articles.length, articles ++ [name],
          (articles.length, parentIdx) :: ps)) := by
  constructor
  · intro h
    simp [insertIfNew, h]
  · intro h
    simp [insertIfNew, h]

/-- C3 witness: the amended specification applied to a concrete registry,
for one present and one absent identifier. -/
theorem insert_if_new_spec_witness :
    insertIfNew ["", "A"] [(1, 0)] "A" 1 = (none, ["", "A"], [(1, 0)]) ∧
    insertIfNew ["", "A"] [(1, 0)] "B" 1 =
      (some 2, ["", "A", "B"], [(2, 1), (1, 0)]) :=
  ⟨(insert_if_new_spec ["", "A"] [(1, 0)] "A" 1).1 (by decide),
   (insert_if_new_spec ["", "A"] [(1, 0)] "B" 1).2 (by decide)⟩

/-- C4 counterexample: with an hourly budget of 1800 (interval 2s), a
first request issued at time 0 that takes 5s returns control at time 5;
the second request is issued at time 5, which is not at least the
completion time of the first plus the interval (7) — the source records
`prev_req` at line 149 before `request.send()`, so spacing is measured
from issuance, not from completion. -/
theorem rate_limiter_completion_cex :
    rlRun (reqWait 1800) 0 [5, 0] = [(0, 5), (5, 5)] ∧
    ¬ ((5 : ℚ) + reqWait 1800 ≤ 5) := by
  constructor
  · norm_num [rlRun, rlRunAux, reqWait]
  · norm_num [reqWait]

theorem rlRunAux_chain (W : ℚ) : ∀ (ds : List ℚ) (now prev : ℚ),
    (∀ p ∈ (rlRunAux W now prev ds).head?, p.1 = max now (prev + W)) ∧
    List.Chain'
      (fun a b : ℚ × ℚ => b.1 = max a.2 (a.1 + W) ∧ a.1 + W ≤ b.1)
      (rlRunAux W now prev ds) := by
  intro ds
  induction ds with
  | nil =>
    intro now prev
    exact ⟨fun p hp => by simp [rlRunAux] at hp, by simp [rlRunAux]⟩
  | cons d ds ih =>
    intro now prev
    constructor
    · intro p hp
      simp only [rlRunAux, List.head?_cons, Option.mem_def,
        Option.some.injEq] at hp
      rw [← hp]
    · rw [rlRunAux]
      rw [List.chain'_cons']
      constructor
      · intro b hb
        have hhead := (ih (max now (prev + W) + d) (max now (prev + W))).1 b hb
        refine ⟨hhead, ?_⟩
        rw [hhead]
        exact le_max_right _ _
      · exact (ih (max now (prev + W) + d) (max now (prev + W))).2

/-- C4 (amended): with `W = 3600 / requests_per_hour`, every request is
issued at least `W` after the previous request was issued — the recorded
timestamp is the moment just before sending — and the issue time of each
request is exactly the later of the previous completion and the previous
issue time plus `W`. -/
theorem rate_limiter_spacing (rph t0 : ℚ) (ds : List ℚ) :
    List.Chain'
      (fun a b : ℚ × ℚ =>
        b.1 = max a.2 (a.1 + reqWait rph) ∧ a.1 + reqWait rph ≤ b.1)
      (rlRun (reqWait rph) t0 ds) :=
  (rlRunAux_chain (reqWait rph) ds t0 (t0 - reqWait rph)).2

/-- C5: the very first fetch of a run is issued immediately: the
previous-request timestamp is initialized `W` in the past (lines 109-111),
so the first issue time is the current time, with zero added delay. -/
theorem first_fetch_immediate (W t0 d : ℚ) (ds : List ℚ) :
    (rlRun W t0 (d :: ds)).head? = some (t0, t0 + d) := by
  simp [rlRun, rlRunAux]

/-- C1 counterexample: in stop-at-first-hit mode the search on `cexCfg`
reports the path `[A, C, D, B]` (three hops), yet the induced link graph
contains the two-hop walk `A → "" → B` through the empty identifier (the
link to the bare prefix), which the sentinel collision prevents the search
from exploring. -/
theorem bfs_shortest_cex :
    cexCfg.all = false ∧
    (cmdPath cexCfg "A" 3).results.head? = some ["A", "C", "D", "B"] ∧
    GPath cexCfg "A" "B" 2 ∧
    2 < (["A", "C", "D", "B"] : List String).length - 1 := by
  refine ⟨rfl, by decide, ?_, by decide⟩
  have h1 : "" ∈ candidates cexCfg "A" := by decide
  have h2 : "B" ∈ candidates cexCfg "" := by decide
  exact GPath.step (GPath.step (GPath.refl "A") h1) h2

/-- C1 (amended): in stop-at-first-hit mode, if a first match is reported
with path `r`, then `r` spells a walk of the induced link graph from the
start to the target of `r.length - 1` hops, and no walk from the start to
the target none of whose intermediate nodes is the empty identifier has
strictly fewer hops.  (Walks through the empty identifier must be
exempted: a link to the bare prefix collides with the sentinel and is
never expanded, as `bfs_shortest_cex` shows.) -/
theorem bfs_first_match_shortest (cfg : Config) (start : String)
    (maxDepth : Nat) (r : List String) (hall : cfg.all = false)
    (hr : ((cmdPath cfg start maxDepth).results).head? = some r) :
    r ≠ [] ∧ GPath cfg start cfg.endName (r.length - 1) ∧
    ∀ k, GPathNE cfg start cfg.endName k → r.length - 1 ≤ k := by
  have hstop := cmdPath_inv cfg start maxDepth
  have hmem : r ∈ (cmdPath cfg start maxDepth).results := by
    cases hres : (cmdPath cfg start maxDepth).results with
    | nil => rw [hres] at hr; simp at hr
    | cons x xs =>
      rw [hres] at hr
      simp only [List.head?_cons, Option.some.injEq] at hr
      rw [← hr]
      exact List.mem_cons_self x xs
  exact hstop.core.resultsOK r hmem

/-- C1 witness: on the corpus where `A` links to `B`, the reported path
`[A, B]` is a one-hop walk and no clean walk is shorter. -/
theorem bfs_first_match_shortest_witness :
    (cmdPath wCfg "A" 1).results.head? = some ["A", "B"] ∧
    ((["A", "B"] : List String) ≠ [] ∧ GPath wCfg "A" wCfg.endName 1 ∧
      ∀ k, GPathNE wCfg "A" wCfg.endName k → 1 ≤ k) := by
  have h := bfs_first_match_shortest wCfg "A" 1 ["A", "B"] rfl (by decide)
  exact ⟨by decide, h⟩

/-- C6: a failed fetch is logged to the error channel, contributes no
children (registry, counters and results untouched), and does not stop the
level loop — the search continues with the next node. -/
theorem fetch_error_recovered (cfg : Config) (st : SearchState) (depth : Nat)
    (h : cfg.fetch (nthD st.articles (st.currIdx + 1) "") = none) :
    (processNode cfg st depth).2 = false ∧
    (processNode cfg st depth).1.articles = st.articles ∧
    (processNode cfg st depth).1.parents = st.parents ∧
    (processNode cfg st depth).1.results = st.results ∧
    (processNode cfg st depth).1.nextLevelLen = st.nextLevelLen ∧
    (processNode cfg st depth).1.currIdx = st.currIdx + 1 ∧
    (processNode cfg st depth).1.errors =
      st.errors ++ [nthD st.articles (st.currIdx + 1) ""] := by
  have heq : processNode cfg st depth =
      ({ st with
         currIdx := st.currIdx + 1
         fetched := st.fetched ++ [(nthD st.articles (st.currIdx + 1) "", depth)]
         errors := st.errors ++ [nthD st.articles (st.currIdx + 1) ""] },
        false) := by
    simp only [processNode, h]
  rw [heq]
  exact ⟨rfl, rfl, rfl, rfl, rfl, rfl, rfl⟩

/-- C6 witness: expanding the start node when every fetch fails. -/
theorem fetch_error_recovered_witness :
    errCfg.fetch (nthD (initState "A").articles ((initState "A").currIdx + 1) "")
      = none ∧
    ((processNode errCfg (initState "A") 0).2 = false ∧
     (processNode errCfg (initState "A") 0).1.articles = (initState "A").articles ∧
     (processNode errCfg (initState "A") 0).1.parents = (initState "A").parents ∧
     (processNode errCfg (initState "A") 0).1.results = (initState "A").results ∧
     (processNode errCfg (initState "A") 0).1.nextLevelLen =
       (initState "A").nextLevelLen ∧
     (processNode errCfg (initState "A") 0).1.currIdx =
       (initState "A").currIdx + 1 ∧
     (processNode errCfg (initState "A") 0).1.errors =
       (initState "A").errors ++
         [nthD (initState "A").articles ((initState "A").currIdx + 1) ""]) :=
  ⟨rfl, fetch_error_recovered errCfg (initState "A") 0 rfl⟩

/-- C7: every fetch happens at a loop depth at most `max_depth` (the level
loop runs depths 0 through `max_depth` inclusive), each expanded node is
one fetch, and every expanded node was discovered at depth at most
`max_depth` (its parent chain has at most `max_depth + 1` entries) — so
nodes discovered while expanding the last level are never fetched. -/
theorem depth_bound_respected (cfg : Config) (start : String) (maxDepth : Nat) :
    (∀ q ∈ (cmdPath cfg start maxDepth).fetched, q.2 ≤ maxDepth) ∧
    (cmdPath cfg start maxDepth).fetched.length =
      (cmdPath cfg start maxDepth).currIdx ∧
    ∀ i, 1 ≤ i → i ≤ (cmdPath cfg start maxDepth).currIdx →
      ∃ l, nodeChain (cmdPath cfg start maxDepth) i = some l ∧
        l.length ≤ maxDepth + 1 := by
  have h := cmdPath_inv cfg start maxDepth
  exact ⟨h.fetchedLe, h.fetchedLen, fun i hi hile => h.depthProc i hi hile⟩

/-- C7 witness: the depth bound on the two-route corpus with bound 2. -/
theorem depth_bound_respected_witness :
    (∀ q ∈ (cmdPath c8Cfg "A" 2).fetched, q.2 ≤ 2) ∧
    (cmdPath c8Cfg "A" 2).fetched.length = (cmdPath c8Cfg "A" 2).currIdx ∧
    ∀ i, 1 ≤ i → i ≤ (cmdPath c8Cfg "A" 2).currIdx →
      ∃ l, nodeChain (cmdPath c8Cfg "A" 2) i = some l ∧ l.length ≤ 2 + 1 :=
  depth_bound_respected c8Cfg "A" 2

theorem processCandidate_all {cfg : Config} {st : SearchState} {n : String}
    (hall : cfg.all = true) : (processCandidate cfg st n).2 = false := by
  rw [processCandidate]
  cases hins : insertIfNew st.articles st.parents n st.currIdx with
  | mk o rest =>
    cases rest with
    | mk arts ps =>
      cases o with
      | none => rfl
      | some newIdx =>
        simp only
        by_cases hend : n = cfg.endName
        · simp [hend, hall]
        · simp [hend]

theorem processCandidates_all {cfg : Config} (hall : cfg.all = true) :
    ∀ (ns : List String) (st : SearchState),
      (processCandidates cfg st ns).2 = false := by
  intro ns
  induction ns with
  | nil =>
    intro st
    rfl
  | cons n ns ih =>
    intro st
    cases hpc : processCandidate cfg st n with
    | mk st1 stop =>
      have := @processCandidate_all cfg st n hall
      rw [hpc] at this
      simp only at this
      subst this
      simp only [processCandidates, hpc]
      exact ih st1

theorem processNode_all {cfg : Config} (hall : cfg.all = true)
    (st : SearchState) (depth : Nat) : (processNode cfg st depth).2 = false := by
  rw [processNode]
  cases hf : cfg.fetch (nthD st.articles (st.currIdx + 1) "") with
  | none => rfl
  | some doc => exact processCandidates_all hall _ _

/-- C8: in all-paths mode no step of a level stops the search (the level
loop always runs to the depth bound); on any invocation at most one result
is ever reported (the dedup rule registers the target only once); and on
the two-route corpus the target is reported exactly once while the search
still expands the depth-2 node after the match. -/
theorem all_paths_mode :
    (∀ (cfg : Config) (st : SearchState) (depth r : Nat), cfg.all = true →
      (processLevel cfg st depth r).2 = false) ∧
    (∀ (cfg : Config) (s : String) (md : Nat), cfg.all = true →
      (cmdPath cfg s md).results.length ≤ 1) ∧
    (cmdPath c8Cfg "A" 2).results = [["A", "B", "T"]] ∧
    (cmdPath c8Cfg "A" 2).fetched = [("A", 0), ("B", 1), ("C", 1), ("T", 2)] := by
  refine ⟨?_, ?_, by decide, by decide⟩
  · intro cfg st depth r hall
    induction r generalizing st with
    | zero => rfl
    | succ r ih =>
      have hn := processNode_all hall st depth
      cases hpn : processNode cfg st depth with
      | mk st1 stop =>
        rw [hpn] at hn
        simp only at hn
        subst hn
        simp only [processLevel, hpn]
        exact ih st1
  · intro cfg s md _
    exact (cmdPath_inv cfg s md).core.resLen

/-- C8 witness: the general parts applied to the two-route corpus. -/
theorem all_paths_mode_witness :
    (processLevel c8Cfg (initState "A") 0 1).2 = false ∧
    (cmdPath c8Cfg "A" 2).results.length ≤ 1 :=
  ⟨all_paths_mode.1 c8Cfg (initState "A") 0 1 rfl,
   all_paths_mode.2.1 c8Cfg "A" 2 rfl⟩

/-- C9: in the final registry of any search, every real index has a
recorded parent with a strictly smaller index, and the reconstruction walk
from any index resolves completely: it terminates at the sentinel and
produces the identifiers from the start article to the node, in order. -/
theorem parent_chain_reconstruction (cfg : Config) (start : String)
    (maxDepth : Nat) (i : Nat) (h1 : 1 ≤ i)
    (h2 : i < (cmdPath cfg start maxDepth).articles.length) :
    ∃ p l, lookupParent (cmdPath cfg start maxDepth).parents i = some p ∧
      p < i ∧
      pathTo (cmdPath cfg start maxDepth).articles
        (cmdPath cfg start maxDepth).parents i = some l ∧
      l ≠ [] ∧ l.head? = some start ∧
      l.getLast? = nth (cmdPath cfg start maxDepth).articles i := by
  have hstop := cmdPath_inv cfg start maxDepth
  rcases hstop.core.parentsOK i h1 h2 with ⟨p, hp, hplt, _⟩
  rcases nodeChain_spec hstop.core.sent hstop.core.parentsOK hstop.core.edges
    i h1 h2 with ⟨l, b, hc, hnb, hhead, hlast, hlen, _⟩
  have hlne : l ≠ [] := by
    intro hnil
    rw [hnil] at hlen
    simp at hlen
  refine ⟨p, l.reverse, hp, hplt, ?_, by simpa using hlne, ?_, ?_⟩
  · have hpt : pathTo (cmdPath cfg start maxDepth).articles
        (cmdPath cfg start maxDepth).parents i =
        (nodeChain (cmdPath cfg start maxDepth) i).map List.reverse := rfl
    rw [hpt, hc]
    rfl
  · rw [List.head?_reverse]
    exact hlast
  · rw [List.getLast?_reverse]
    rw [hhead, hnb]

/-- C9 witness: the reconstruction of the target node on the one-link
corpus. -/
theorem parent_chain_reconstruction_witness :
    (1 ≤ 2 ∧ 2 < (cmdPath wCfg "A" 1).articles.length) ∧
    (∃ p l, lookupParent (cmdPath wCfg "A" 1).parents 2 = some p ∧ p < 2 ∧
      pathTo (cmdPath wCfg "A" 1).articles (cmdPath wCfg "A" 1).parents 2 =
        some l ∧
      l ≠ [] ∧ l.head? = some "A" ∧
      l.getLast? = nth (cmdPath wCfg "A" 1).articles 2) :=
  ⟨⟨by decide, by decide⟩,
   parent_chain_reconstruction wCfg "A" 1 2 (by decide) (by decide)⟩

/-- C10: a path is printed only when the target is inserted as a fresh
registry node, so a search whose target equals the start article, equals
`Main_Page`, contains `':'`, or is the empty string (which collides with
the sentinel in the membership check) emits no path output at all. -/
theorem degenerate_target_no_output (cfg : Config) (start : String)
    (maxDepth : Nat)
    (h : cfg.endName = start ∨ cfg.endName = "" ∨ cfg.endName = "Main_Page" ∨
      containsColon cfg.endName.data = true) :
    (cmdPath cfg start maxDepth).results = [] := by
  have hstop := cmdPath_inv cfg start maxDepth
  rcases hstop.core.resNew with hres | ⟨hne, hns, hmp, hcol⟩
  · exact hres
  · rcases h with h | h | h | h
    · exact absurd h hns
    · exact absurd h hne
    · exact absurd h hmp
    · rw [hcol] at h
      exact absurd h (by simp)

/-- C10 witness: the start article links directly to itself and is also
the target; no path is ever reported. -/
theorem degenerate_target_no_output_witness :
    "A" ∈ candidates selfCfg "A" ∧
    (cmdPath selfCfg "A" 2).results = [] :=
  ⟨by decide, degenerate_target_no_output selfCfg "A" 2 (Or.inl rfl)⟩

end WikiPath
